import Mathlib

/-!
Verification of the `mygit` content-addressed version-control core
(`src/main.cpp`) against its natural-language specification.

Byte strings are modelled as `List Char` (the program operates on
`std::string`, i.e. byte sequences; every byte value the program
manipulates fits a `Char`).  Pure functions of the program are
translated one-to-one; the stateful `commit`/`checkout` commands are
modelled as explicit state transformers over a small repository-state
record, emitting an event trace that records the order of their side
effects.  The SHA-1 hash and the zlib compressor are external
primitives; operations depending on them are parameterised by an
abstract hash/decode function constrained only by the documented
contract of the primitive.
-/

namespace MyGit

/-- The NUL byte, written `'\0'` in the C++ source. -/
def nul : Char := Char.ofNat 0

/-- Model of `std::string::find(ch, pos)` followed by splitting: returns
`some (before, after)` for the first occurrence of `ch`, `none` if `ch`
does not occur (`std::string::npos`). -/
def splitAtChar (ch : Char) : List Char → Option (List Char × List Char)
  | [] => none
  | c :: cs =>
    if c = ch then some ([], cs)
    else (splitAtChar ch cs).map (fun p => (c :: p.1, p.2))

theorem splitAtChar_append (ch : Char) (a r : List Char) (h : ch ∉ a) :
    splitAtChar ch (a ++ ch :: r) = some (a, r) := by
  induction a with
  | nil => simp [splitAtChar]
  | cons c cs ih =>
    have hc : c ≠ ch := by
      intro hh
      exact h (by simp [hh])
    have hcs : ch ∉ cs := fun hm => h (List.mem_cons_of_mem _ hm)
    simp [splitAtChar, hc, ih hcs]

theorem splitAtChar_eq_some (ch : Char) {s a r : List Char}
    (h : splitAtChar ch s = some (a, r)) : s = a ++ ch :: r := by
  induction s generalizing a r with
  | nil => simp [splitAtChar] at h
  | cons c cs ih =>
    by_cases hc : c = ch
    · simp [splitAtChar, hc] at h
      simp [hc, h.1.symm, h.2]
    · rw [splitAtChar, if_neg hc, Option.map_eq_some'] at h
      rcases h with ⟨p, hp, hfp⟩
      have h1 : c :: p.1 = a := congrArg Prod.fst hfp
      have h2 : p.2 = r := congrArg Prod.snd hfp
      have hs : cs = p.1 ++ ch :: p.2 := ih hp
      rw [← h1, ← h2, hs]
      simp

/-- Decimal digit character, as produced by `std::to_string` and by
`operator<<` on integers. -/
def digitChar (d : Nat) : Char := Char.ofNat (48 + d % 10)

/-- Fuel-driven decimal rendering of a natural number, least-significant
digit last; models `std::to_string(n)` for `n : size_t` (and streaming a
non-negative `time_t`). -/
def natDecAux : Nat → Nat → List Char → List Char
  | 0, _, acc => acc
  | fuel + 1, n, acc =>
    if n < 10 then digitChar n :: acc
    else natDecAux fuel (n / 10) (digitChar (n % 10) :: acc)

/-- Decimal rendering of a natural number (`std::to_string`). -/
def natDecimal (n : Nat) : List Char := natDecAux (n + 1) n []

theorem digitChar_mem (d : Nat) : digitChar d ∈ "0123456789".data := by
  have h : d % 10 < 10 := Nat.mod_lt _ (by decide)
  unfold digitChar
  interval_cases h : d % 10 <;> decide

theorem natDecAux_digits (fuel : Nat) :
    ∀ n acc, (∀ c ∈ acc, c ∈ "0123456789".data) →
      ∀ c ∈ natDecAux fuel n acc, c ∈ "0123456789".data := by
  induction fuel with
  | zero => intro n acc hacc c hc; exact hacc c hc
  | succ f ih =>
    intro n acc hacc c hc
    unfold natDecAux at hc
    by_cases hn : n < 10
    · simp [hn] at hc
      rcases hc with hc | hc
      · exact hc ▸ digitChar_mem n
      · exact hacc c hc
    · simp [hn] at hc
      refine ih (n / 10) (digitChar (n % 10) :: acc) ?_ c hc
      intro x hx
      rcases List.mem_cons.mp hx with hx | hx
      · exact hx ▸ digitChar_mem (n % 10)
      · exact hacc x hx

theorem natDecimal_digits (n : Nat) : ∀ c ∈ natDecimal n, c ∈ "0123456789".data := by
  intro c hc
  exact natDecAux_digits (n + 1) n [] (by intro x hx; simp at hx) c hc

theorem nul_not_mem_natDecimal (n : Nat) : nul ∉ natDecimal n := by
  intro h
  have := natDecimal_digits n nul h
  revert this
  decide

theorem newline_not_mem_natDecimal (n : Nat) : '\n' ∉ natDecimal n := by
  intro h
  have := natDecimal_digits n '\n' h
  revert this
  decide

/-! ## Blob objects -/

/-- Serialization built by `createBlob` (src/main.cpp:187):
`"blob " + to_string(content.size()) + '\0' + content`. -/
def encodeBlob (content : List Char) : List Char :=
  "blob ".data ++ natDecimal content.length ++ nul :: content

/-- Blob decoding as performed by `restoreTree` (src/main.cpp:613-617)
and `cmdCatFile` (src/main.cpp:679-684): find the first null byte and
strip everything through it; `none` models the `continue`/`return` taken
when there is no null byte (or the data is empty). -/
def decodeBlob (s : List Char) : Option (List Char) :=
  (splitAtChar nul s).map (fun p => p.2)

theorem nul_not_mem_blobHeader (n : Nat) :
    nul ∉ "blob ".data ++ natDecimal n := by
  intro h
  rcases List.mem_append.mp h with h | h
  · revert h; decide
  · exact nul_not_mem_natDecimal n h

/-- C1.  Blob round-trip: decoding the serialization produced by
`createBlob` by stripping through the first null byte returns exactly
the original content. -/
theorem blob_roundtrip (c : List Char) :
    decodeBlob (encodeBlob c) = some c := by
  unfold decodeBlob encodeBlob
  rw [splitAtChar_append nul ("blob ".data ++ natDecimal c.length) c
    (nul_not_mem_blobHeader c.length)]
  rfl

/-! ## Tree objects -/

/-- One entry of a Tree object (struct `TreeEntry`, src/main.cpp:197-203). -/
structure TreeEntry where
  mode : List Char
  name : List Char
  sha : List Char
  isTree : Bool
deriving DecidableEq

/-- Bytes one entry contributes to a tree body:
`treeContent << entry.mode << " " << entry.name << '\0' << entry.sha`
(src/main.cpp:259 and src/main.cpp:507). -/
def entryBytes (e : TreeEntry) : List Char :=
  e.mode ++ ' ' :: e.name ++ nul :: e.sha

/-- Body of a tree object: concatenation of the entry records. -/
def treeBody (es : List TreeEntry) : List Char :=
  (es.map entryBytes).flatten

/-- Full tree serialization: `"tree " + to_string(size) + '\0' + body`
(src/main.cpp:263 and src/main.cpp:510). -/
def mkTreeData (body : List Char) : List Char :=
  "tree ".data ++ natDecimal body.length ++ nul :: body

/-- Entry-parsing loop of `parseTree` (src/main.cpp:285-309), written
with explicit fuel (the loop advances at least one byte per iteration,
so the input length is always enough fuel): read up to the next space
(mode), up to the next null (name), then exactly 40 bytes (digest);
any of the three lookups failing `break`s out of the loop. -/
def parseEntriesAux : Nat → List Char → List TreeEntry
  | 0, _ => []
  | fuel + 1, s =>
    match splitAtChar ' ' s with
    | none => []
    | some (mode, rest1) =>
      match splitAtChar nul rest1 with
      | none => []
      | some (name, rest2) =>
        if rest2.length < 40 then []
        else
          { mode := mode, name := name, sha := rest2.take 40,
            isTree := mode == "040000".data } :: parseEntriesAux fuel (rest2.drop 40)

/-- Entry-parsing loop of `parseTree` applied to a tree body. -/
def parseEntries (s : List Char) : List TreeEntry :=
  parseEntriesAux s.length s

/-- Translation of `parseTree` on the raw object data (src/main.cpp:271-312): returns
`[]` for empty data or data without a null byte, otherwise skips the
header through the first null byte and runs the entry loop. -/
def parseTree (treeData : List Char) : List TreeEntry :=
  match splitAtChar nul treeData with
  | none => []
  | some (_, body) => parseEntries body

/-- The entry `parseTree` reconstructs for an encoded entry: same mode,
name and digest, with `isTree` derived from `mode == "040000"`. -/
def toParsed (e : TreeEntry) : TreeEntry :=
  { e with isTree := e.mode == "040000".data }

/-- Well-formedness of an entry as the encoders produce it: the mode has
no space, the name has no null byte, and the digest is the 40-character
hex rendering. -/
def entryWf (e : TreeEntry) : Prop :=
  ' ' ∉ e.mode ∧ nul ∉ e.name ∧ e.sha.length = 40

instance (e : TreeEntry) : Decidable (entryWf e) :=
  inferInstanceAs (Decidable (_ ∧ _ ∧ _))

theorem parseEntriesAux_cons (f : Nat) (e : TreeEntry) (rest : List Char)
    (hw : entryWf e) :
    parseEntriesAux (f + 1) (entryBytes e ++ rest) =
      toParsed e :: parseEntriesAux f rest := by
  obtain ⟨h1, h2, h3⟩ := hw
  have hform : entryBytes e ++ rest =
      e.mode ++ ' ' :: (e.name ++ nul :: (e.sha ++ rest)) := by
    simp [entryBytes]
  have hs1 := splitAtChar_append ' ' e.mode (e.name ++ nul :: (e.sha ++ rest)) h1
  have hs2 := splitAtChar_append nul e.name (e.sha ++ rest) h2
  have hlen : ¬ (e.sha ++ rest).length < 40 := by
    simp [List.length_append, h3]
  have htake : (e.sha ++ rest).take 40 = e.sha := List.take_left' h3
  have hdrop : (e.sha ++ rest).drop 40 = rest := List.drop_left' h3
  rw [hform, parseEntriesAux, hs1]
  simp only [hs2, hlen, if_false, htake, hdrop, toParsed]

theorem parseEntriesAux_body (E : List TreeEntry) :
    ∀ (T : List Char) (f : Nat), (∀ e ∈ E, entryWf e) → E.length ≤ f →
      parseEntriesAux f (treeBody E ++ T) =
        E.map toParsed ++ parseEntriesAux (f - E.length) T := by
  induction E with
  | nil => intro T f _ _; simp [treeBody]
  | cons e E ih =>
    intro T f hw hf
    cases f with
    | zero => simp at hf
    | succ f =>
      have hbody : treeBody (e :: E) ++ T = entryBytes e ++ (treeBody E ++ T) := by
        simp [treeBody]
      rw [hbody, parseEntriesAux_cons f e _ (hw e (by simp)),
        ih T f (fun x hx => hw x (by simp [hx])) (by simp at hf; omega)]
      simp [Nat.succ_sub_succ]

theorem parseEntriesAux_nil_of (T : List Char) (h : parseEntries T = []) :
    ∀ g, parseEntriesAux g T = [] := by
  intro g
  cases g with
  | zero => rfl
  | succ g =>
    cases T with
    | nil => simp [parseEntriesAux, splitAtChar]
    | cons c cs =>
      have h' : parseEntriesAux (cs.length + 1) (c :: cs) = [] := by
        simpa [parseEntries] using h
      rw [parseEntriesAux] at h' ⊢
      cases hs1 : splitAtChar ' ' (c :: cs) with
      | none => simp
      | some p =>
        obtain ⟨mode, r1⟩ := p
        rw [hs1] at h'
        simp only at h' ⊢
        cases hs2 : splitAtChar nul r1 with
        | none => simp
        | some q =>
          obtain ⟨name, r2⟩ := q
          rw [hs2] at h'
          simp only at h' ⊢
          by_cases hl : r2.length < 40
          · simp [hl]
          · simp [hl] at h'

theorem treeBody_length_ge (E : List TreeEntry) : E.length ≤ (treeBody E).length := by
  induction E with
  | nil => simp [treeBody]
  | cons e E ih =>
    have h1 : (treeBody (e :: E)).length = (entryBytes e).length + (treeBody E).length := by
      simp [treeBody]
    have h2 : 1 ≤ (entryBytes e).length := by
      simp [entryBytes]
      omega
    simp only [List.length_cons]
    omega

theorem parseEntries_body_append (E : List TreeEntry) (T : List Char)
    (hw : ∀ e ∈ E, entryWf e) (hT : parseEntries T = []) :
    parseEntries (treeBody E ++ T) = E.map toParsed := by
  have hlen : E.length ≤ (treeBody E ++ T).length := by
    have := treeBody_length_ge E
    simp [List.length_append]
    omega
  unfold parseEntries
  rw [parseEntriesAux_body E T _ hw hlen, parseEntriesAux_nil_of T hT, List.append_nil]

theorem nul_not_mem_treeHeader (n : Nat) :
    nul ∉ "tree ".data ++ natDecimal n := by
  intro h
  rcases List.mem_append.mp h with h | h
  · revert h; decide
  · exact nul_not_mem_natDecimal n h

theorem parseTree_mkTreeData (body : List Char) :
    parseTree (mkTreeData body) = parseEntries body := by
  unfold parseTree mkTreeData
  rw [splitAtChar_append nul ("tree ".data ++ natDecimal body.length) body
    (nul_not_mem_treeHeader body.length)]

/-! ## Index entries and the tree built at commit time -/

/-- Separator test for `find_last_of("\\/")` in `getFilename`. -/
def isSep (c : Char) : Bool := c == '\\' || c == '/'

/-- Translation of `getFilename` (src/main.cpp:20-28): the suffix after the
last backslash or slash, or the whole path when neither occurs. -/
def getFilename (p : List Char) : List Char :=
  (p.reverse.takeWhile (fun c => !isSep c)).reverse

/-- One staged record (struct `IndexEntry`, src/main.cpp:409-414). -/
structure IndexEntry where
  path : List Char
  sha : List Char
  mode : List Char
deriving DecidableEq

/-- The tree-entry list implicit in the loop of `createTreeFromIndex`
(src/main.cpp:503-508): per index entry, the mode, the terminal path
component as name, and the digest, in index order (the loop performs no
sorting).  `isTree` plays no role in the serialization. -/
def indexTreeEntries (idx : List IndexEntry) : List TreeEntry :=
  idx.map fun e =>
    { mode := e.mode, name := getFilename e.path, sha := e.sha, isTree := false }

/-- The tree serialization built by `createTreeFromIndex`
(src/main.cpp:503-510). -/
def treeDataFromIndex (idx : List IndexEntry) : List Char :=
  mkTreeData (treeBody (indexTreeEntries idx))

/-- Lexicographic byte order on names, formalising the spec's
"lexicographic byte order" (`std::string::operator<`). -/
def lexLt : List Char → List Char → Bool
  | [], [] => false
  | [], _ :: _ => true
  | _ :: _, [] => false
  | a :: as, b :: bs =>
    if a < b then true else if b < a then false else lexLt as bs

/-- Checks that adjacent entries are strictly increasing by name in
lexicographic byte order. -/
def chainLexLtNames : List TreeEntry → Bool
  | [] => true
  | [_] => true
  | a :: b :: rest => lexLt a.name b.name && chainLexLtNames (b :: rest)

/-- The spec-side sortedness property of C2: tree entries strictly
increasing by name in lexicographic byte order. -/
def strictIncreasingByName (es : List TreeEntry) : Prop :=
  chainLexLtNames es = true

instance (es : List TreeEntry) : Decidable (strictIncreasingByName es) :=
  inferInstanceAs (Decidable (_ = true))

/-- A 40-byte digest of `'a'`s, used in concrete scenarios. -/
def shaA : List Char := List.replicate 40 'a'

/-- A 40-byte digest of `'b'`s, used in concrete scenarios. -/
def shaB : List Char := List.replicate 40 'b'

/-- An index staging `b` and then `a`, as produced by `add b` followed by
`add a`. -/
def cexIndex : List IndexEntry :=
  [{ path := "b".data, sha := shaB, mode := "100644".data },
   { path := "a".data, sha := shaA, mode := "100644".data }]

/-- C2, counterexample.  For the index staging `b` then `a`, the tree
object built at commit time has its entries in index order `b`, `a`,
which is not strictly increasing by name in lexicographic byte order:
`createTreeFromIndex` never sorts. -/
theorem treeFromIndex_not_sorted_cex :
    ¬ strictIncreasingByName (parseTree (treeDataFromIndex cexIndex)) := by
  decide

/-- C2, amended.  For every non-empty index whose entries are
well-formed (mode without space, terminal path component without null,
40-byte digest), the tree object built at commit time takes only the
terminal path component of each entry as the name and keeps the entry's
mode and digest, but its entries appear in index order (decoding the
built tree returns exactly the index entries, in index order, not
sorted). -/
theorem treeFromIndex_entries (idx : List IndexEntry)
    (hne : idx ≠ [])
    (hw : ∀ e ∈ idx, ' ' ∉ e.mode ∧ nul ∉ getFilename e.path ∧ e.sha.length = 40) :
    parseTree (treeDataFromIndex idx) =
      idx.map (fun e =>
        { mode := e.mode, name := getFilename e.path, sha := e.sha,
          isTree := e.mode == "040000".data }) := by
  unfold treeDataFromIndex
  rw [parseTree_mkTreeData]
  have hw' : ∀ e ∈ indexTreeEntries idx, entryWf e := by
    intro e he
    simp only [indexTreeEntries, List.mem_map] at he
    obtain ⟨x, hx, rfl⟩ := he
    exact hw x hx
  have hb := parseEntries_body_append (indexTreeEntries idx) [] hw' rfl
  rw [List.append_nil] at hb
  rw [hb]
  simp [indexTreeEntries, toParsed, List.map_map, Function.comp]

/-- An index staging `sub\y` then `x`, used as the concrete input of the
witness for the amended C2. -/
def witC2Index : List IndexEntry :=
  [{ path := "sub\\y".data, sha := shaB, mode := "100644".data },
   { path := "x".data, sha := shaA, mode := "100644".data }]

/-- C2 witness: the amended claim at the concrete index staging `sub\y`
then `x`. -/
theorem treeFromIndex_entries_witness :
    witC2Index ≠ [] ∧
    (∀ e ∈ witC2Index, ' ' ∉ e.mode ∧ nul ∉ getFilename e.path ∧ e.sha.length = 40) ∧
    parseTree (treeDataFromIndex witC2Index) =
      witC2Index.map (fun e =>
        { mode := e.mode, name := getFilename e.path, sha := e.sha,
          isTree := e.mode == "040000".data }) :=
  ⟨by decide, by decide, treeFromIndex_entries witC2Index (by decide) (by decide)⟩

/-! ## C6: malformed tree bodies -/

/-- A well-formed tree entry named `a`. -/
def cexEntryA : TreeEntry :=
  { mode := "100644".data, name := "a".data, sha := shaA, isTree := false }

/-- A truncated trailing record: mode and name present, but only 39
digest bytes after the name's null. -/
def cexTruncated : List Char := "100644 b".data ++ nul :: List.replicate 39 'c'

/-- C6, counterexample.  On a serialized tree whose body is one
well-formed record followed by a truncated record (39 digest bytes),
`parseTree` does not fail: it returns the successfully parsed prefix of
entries. -/
theorem tree_truncated_record_cex :
    parseTree (mkTreeData (treeBody [cexEntryA] ++ cexTruncated)) = [cexEntryA] := by
  decide

/-- C6, amended.  For every serialized tree whose body is a sequence of
well-formed records followed by a non-empty trailing segment from which
the entry loop parses no entry (in particular a truncated mode, name, or
digest), `parseTree` silently stops at the partial record and returns
the successfully parsed prefix of entries; no error is reported. -/
theorem tree_truncated_record_parses_to_good_entries (E : List TreeEntry) (T : List Char)
    (hw : ∀ e ∈ E, entryWf e) (hT : parseEntries T = []) (hTne : T ≠ []) :
    parseTree (mkTreeData (treeBody E ++ T)) = E.map toParsed := by
  rw [parseTree_mkTreeData]
  exact parseEntries_body_append E T hw hT

/-- A subtree entry named `d`, used in the witness for the amended C6. -/
def witC6Entry : TreeEntry :=
  { mode := "040000".data, name := "d".data, sha := shaB, isTree := true }

/-- A truncated trailing record consisting of a mode fragment with no
space. -/
def witC6Truncated : List Char := "100".data

/-- C6 witness: the amended claim at a concrete tree body consisting of
one subtree record followed by a truncated mode. -/
theorem tree_truncated_record_witness :
    (∀ e ∈ [witC6Entry], entryWf e) ∧ parseEntries witC6Truncated = [] ∧
    witC6Truncated ≠ [] ∧
    parseTree (mkTreeData (treeBody [witC6Entry] ++ witC6Truncated)) =
      [witC6Entry].map toParsed :=
  ⟨by decide, by decide, by decide,
    tree_truncated_record_parses_to_good_entries [witC6Entry] witC6Truncated
      (by decide) (by decide) (by decide)⟩

/-! ## C7: duplicate tree names -/

/-- An index staging `sub\a` and `a`: after `createTreeFromIndex`
flattens paths to their terminal component, both entries are named
`a`. -/
def dupIndex : List IndexEntry :=
  [{ path := "sub\\a".data, sha := shaA, mode := "100644".data },
   { path := "a".data, sha := shaB, mode := "100644".data }]

/-- C7, counterexample.  For the index staging `sub\a` and `a` the tree
entry names collide, yet `createTreeFromIndex` produces a tree object
(no `DuplicateName` failure exists in the code) and decoding it returns
both same-named entries. -/
theorem tree_duplicate_names_cex :
    (¬ ((indexTreeEntries dupIndex).map fun e => e.name).Nodup) ∧
    parseTree (treeDataFromIndex dupIndex) =
      [{ mode := "100644".data, name := "a".data, sha := shaA, isTree := false },
       { mode := "100644".data, name := "a".data, sha := shaB, isTree := false }] := by
  constructor
  · decide
  · decide

/-- C7, amended.  For every list of well-formed tree entries containing
two entries with the same name, the encoder performs no duplicate check:
it produces a tree object whose decoding returns all the entries,
duplicates included, in their given order. -/
theorem tree_duplicate_names_encoded (E : List TreeEntry)
    (hw : ∀ e ∈ E, entryWf e)
    (hdup : ¬ (E.map fun e => e.name).Nodup) :
    parseTree (mkTreeData (treeBody E)) = E.map toParsed := by
  rw [parseTree_mkTreeData]
  have hb := parseEntries_body_append E [] hw rfl
  rw [List.append_nil] at hb
  exact hb

/-- Two well-formed entries sharing the name `a`. -/
def witC7Entries : List TreeEntry :=
  [{ mode := "100644".data, name := "a".data, sha := shaA, isTree := false },
   { mode := "100644".data, name := "a".data, sha := shaB, isTree := false }]

/-- C7 witness: the amended claim at a concrete entry list with a
duplicated name. -/
theorem tree_duplicate_names_encoded_witness :
    (∀ e ∈ witC7Entries, entryWf e) ∧
    (¬ (witC7Entries.map fun e => e.name).Nodup) ∧
    parseTree (mkTreeData (treeBody witC7Entries)) = witC7Entries.map toParsed :=
  ⟨by decide, by decide,
    tree_duplicate_names_encoded witC7Entries (by decide) (by decide)⟩

/-! ## Commit objects -/

/-- The 40-character all-zero digest (src/main.cpp:325). -/
def zeros40 : List Char := List.replicate 40 '0'

/-- The author line emitted by `createCommit` (src/main.cpp:329), up to
but excluding its newline. -/
def authorLine (now : Nat) : List Char :=
  "author User <user@example.com> ".data ++ natDecimal now ++ " +0000".data

/-- The committer line emitted by `createCommit` (src/main.cpp:330), up
to but excluding its newline. -/
def committerLine (now : Nat) : List Char :=
  "committer User <user@example.com> ".data ++ natDecimal now ++ " +0000".data

/-- The commit payload built by `createCommit` (src/main.cpp:323-332):
tree line, optional parent line (present iff the parent digest is
non-empty and differs from the all-zero digest), author and committer
lines, a blank line, and the message followed by a newline. -/
def commitContent (treeSha parentSha message : List Char) (now : Nat) : List Char :=
  "tree ".data ++ treeSha ++ "\n".data
  ++ (if parentSha ≠ [] ∧ parentSha ≠ zeros40 then
        "parent ".data ++ parentSha ++ "\n".data
      else [])
  ++ authorLine now ++ "\n".data
  ++ committerLine now ++ "\n".data
  ++ "\n".data ++ message ++ "\n".data

/-- The full commit serialization:
`"commit " + to_string(content.size()) + '\0' + content`
(src/main.cpp:335). -/
def mkCommitData (content : List Char) : List Char :=
  "commit ".data ++ natDecimal content.length ++ nul :: content

/-- Splits a byte string at every newline; pure split, so a trailing
newline yields a trailing empty segment. -/
def splitLines : List Char → List (List Char)
  | [] => [[]]
  | c :: cs =>
    if c = '\n' then [] :: splitLines cs
    else
      match splitLines cs with
      | [] => [[c]]
      | l :: ls => (c :: l) :: ls

theorem splitLines_newline_cons (r : List Char) :
    splitLines ('\n' :: r) = [] :: splitLines r := by
  simp [splitLines]

theorem splitLines_append (a r : List Char) (h : '\n' ∉ a) :
    splitLines (a ++ '\n' :: r) = a :: splitLines r := by
  induction a with
  | nil => simp [splitLines]
  | cons c cs ih =>
    have hc : c ≠ '\n' := fun hh => h (by simp [hh])
    have hcs : '\n' ∉ cs := fun hm => h (List.mem_cons_of_mem _ hm)
    rw [List.cons_append, splitLines, if_neg hc, ih hcs]

/-- The header region of a commit payload: its lines before the first
blank line, mirroring the header/message boundary of the commit grammar
(and of `parseCommit`, src/main.cpp:369-372). -/
def headerLines (content : List Char) : List (List Char) :=
  (splitLines content).takeWhile (fun l => !l.isEmpty)

/-- The C4 property "the payload contains a `parent <digest>` line": a
header line starting with `parent `. -/
def hasParentLine (content : List Char) : Prop :=
  ∃ l ∈ headerLines content, l.take 7 = "parent ".data

theorem take_ne_of_head {x y : List Char} {cx cy : Char} {n : Nat} (hn : 0 < n)
    (hx : x[0]? = some cx) (hy : y[0]? = some cy) (hne : cx ≠ cy) :
    x.take n ≠ y := by
  intro h
  have h0 : (x.take n)[0]? = y[0]? := by rw [h]
  rw [List.getElem?_take, if_pos hn, hx, hy] at h0
  exact hne (Option.some.inj h0)

theorem newline_not_mem_authorLine (now : Nat) : '\n' ∉ authorLine now := by
  intro h
  rcases List.mem_append.mp h with h | h
  · rcases List.mem_append.mp h with h | h
    · revert h; decide
    · exact newline_not_mem_natDecimal now h
  · revert h; decide

theorem newline_not_mem_committerLine (now : Nat) : '\n' ∉ committerLine now := by
  intro h
  rcases List.mem_append.mp h with h | h
  · rcases List.mem_append.mp h with h | h
    · revert h; decide
    · exact newline_not_mem_natDecimal now h
  · revert h; decide

/-- C4.  The commit payload contains a `parent <digest>` header line if
and only if the supplied parent digest is non-empty and not equal to the
40-character all-zero digest. -/
theorem commit_parent_line_iff (t p m : List Char) (now : Nat)
    (ht : '\n' ∉ t) (hp : '\n' ∉ p) :
    hasParentLine (commitContent t p m now) ↔ (p ≠ [] ∧ p ≠ zeros40) := by
  have hA : '\n' ∉ "tree ".data ++ t := by
    intro h
    rcases List.mem_append.mp h with h | h
    · revert h; decide
    · exact ht h
  have hB : '\n' ∉ "parent ".data ++ p := by
    intro h
    rcases List.mem_append.mp h with h | h
    · revert h; decide
    · exact hp h
  have hC := newline_not_mem_authorLine now
  have hD := newline_not_mem_committerLine now
  by_cases hc : p ≠ [] ∧ p ≠ zeros40
  · have hshape : commitContent t p m now =
        ("tree ".data ++ t) ++ '\n' ::
          (("parent ".data ++ p) ++ '\n' ::
            (authorLine now ++ '\n' ::
              (committerLine now ++ '\n' :: ('\n' :: (m ++ ['\n']))))) := by
      unfold commitContent
      rw [if_pos hc]
      simp [List.append_assoc]
    have hlines : splitLines (commitContent t p m now) =
        ("tree ".data ++ t) :: ("parent ".data ++ p) ::
          authorLine now :: committerLine now :: [] :: splitLines (m ++ ['\n']) := by
      rw [hshape, splitLines_append _ _ hA, splitLines_append _ _ hB,
        splitLines_append _ _ hC, splitLines_append _ _ hD, splitLines_newline_cons]
    have hheader : headerLines (commitContent t p m now) =
        [("tree ".data ++ t), ("parent ".data ++ p), authorLine now, committerLine now] := by
      unfold headerLines
      rw [hlines]
      simp [List.takeWhile_cons, List.isEmpty_iff, List.append_eq_nil, authorLine,
        committerLine]
    constructor
    · intro _; exact hc
    · intro _
      refine ⟨"parent ".data ++ p, ?_, ?_⟩
      · rw [hheader]; simp
      · rw [List.take_append_of_le_length (by decide)]
        decide
  · have hshape : commitContent t p m now =
        ("tree ".data ++ t) ++ '\n' ::
          (authorLine now ++ '\n' ::
            (committerLine now ++ '\n' :: ('\n' :: (m ++ ['\n'])))) := by
      unfold commitContent
      rw [if_neg hc]
      simp [List.append_assoc]
    have hlines : splitLines (commitContent t p m now) =
        ("tree ".data ++ t) :: authorLine now :: committerLine now ::
          [] :: splitLines (m ++ ['\n']) := by
      rw [hshape, splitLines_append _ _ hA, splitLines_append _ _ hC,
        splitLines_append _ _ hD, splitLines_newline_cons]
    have hheader : headerLines (commitContent t p m now) =
        [("tree ".data ++ t), authorLine now, committerLine now] := by
      unfold headerLines
      rw [hlines]
      simp [List.takeWhile_cons, List.isEmpty_iff, List.append_eq_nil, authorLine,
        committerLine]
    constructor
    · rintro ⟨l, hl, h7⟩
      rw [hheader] at hl
      simp only [List.mem_cons, List.not_mem_nil, or_false] at hl
      rcases hl with rfl | rfl | rfl
      · exact absurd h7 (@take_ne_of_head ("tree ".data ++ t) ("parent ".data)
          't' 'p' 7 (by decide) rfl rfl (by decide))
      · exact absurd h7 (@take_ne_of_head (authorLine now) ("parent ".data)
          'a' 'p' 7 (by decide) rfl rfl (by decide))
      · exact absurd h7 (@take_ne_of_head (committerLine now) ("parent ".data)
          'c' 'p' 7 (by decide) rfl rfl (by decide))
    · intro hcc; exact absurd hcc hc

/-- C4 witness: the parent-line characterization instantiated at a
concrete non-zero parent digest and at the empty parent digest. -/
theorem commit_parent_line_iff_witness :
    ('\n' ∉ shaA) ∧ ('\n' ∉ shaB) ∧
    (hasParentLine (commitContent shaA shaB "first".data 1700000000) ↔
      (shaB ≠ [] ∧ shaB ≠ zeros40)) :=
  ⟨by decide, by decide,
    commit_parent_line_iff shaA shaB "first".data 1700000000 (by decide) (by decide)⟩

/-! ## Decompression (C5) -/

/-- Possible results of `decompressData`. -/
inductive DecompressOutcome where
  | ok (content : List Char)
  | corrupt
  | diverges
deriving DecidableEq

/-- The `Z_BUF_ERROR` retry loop of `decompressData` (src/main.cpp:70-91)
for a stream whose decoded content is `c`.  Per zlib's documented
contract, `uncompress` reports `Z_BUF_ERROR` exactly when the output
buffer (`size`) is smaller than the decoded content, in which case the
code doubles the buffer and retries; otherwise it succeeds.
`.diverges` marks the one situation in which the C++ loop could never
exit (a zero-sized buffer, which doubling never grows); the totality
theorem shows it is unreachable. -/
def decompressGo (c : List Char) (size : Nat) : DecompressOutcome :=
  if hlt : size < c.length then
    if hpos : 0 < size then decompressGo c (size * 2)
    else .diverges
  else .ok c
termination_by c.length - size
decreasing_by omega

/-- Translation of `decompressData` (src/main.cpp:65-92), parameterised by the zlib
stream semantics `decode` (zlib is an external library; on a given
input, `uncompress` either deterministically fails — modelled
`decode input = none`, the branch printing `Error: Decompression failed`
— or decodes to a unique byte string).  The initial output-buffer guess
is `compressed.size() * 10` (src/main.cpp:67). -/
def decompressData (decode : List Char → Option (List Char)) (input : List Char) :
    DecompressOutcome :=
  match decode input with
  | none => .corrupt
  | some c => decompressGo c (input.length * 10)

theorem decompressGo_ok (c : List Char) :
    ∀ n size, 0 < size → c.length - size ≤ n → decompressGo c size = .ok c := by
  intro n
  induction n with
  | zero =>
    intro size hpos hb
    rw [decompressGo, dif_neg (by omega)]
  | succ n ih =>
    intro size hpos hb
    by_cases hlt : size < c.length
    · rw [decompressGo, dif_pos hlt, dif_pos hpos]
      exact ih (size * 2) (by omega) (by omega)
    · rw [decompressGo, dif_neg hlt]

/-- C5.  Decompression terminates on every input: assuming the zlib
contract fact that a decodable stream is non-empty (a zlib stream
carries at least a header and a checksum), `decompressData` returns the
decoded bytes of a valid stream, fails on an invalid stream (the
`CorruptObject` path), and never diverges — the short-buffer doubling
retry is the only recovered condition and cannot repeat forever. -/
theorem decompress_total (decode : List Char → Option (List Char)) (input : List Char)
    (hz : ∀ c, decode input = some c → input ≠ []) :
    (decode input = none → decompressData decode input = DecompressOutcome.corrupt)
    ∧ (∀ c, decode input = some c → decompressData decode input = DecompressOutcome.ok c)
    ∧ decompressData decode input ≠ DecompressOutcome.diverges := by
  have h1 : decode input = none → decompressData decode input = DecompressOutcome.corrupt := by
    intro h
    unfold decompressData
    rw [h]
  have h2 : ∀ c, decode input = some c →
      decompressData decode input = DecompressOutcome.ok c := by
    intro c hc
    unfold decompressData
    rw [hc]
    have hne : input ≠ [] := hz c hc
    have hlen : input.length ≠ 0 := fun h0 => hne (List.length_eq_zero.mp h0)
    exact decompressGo_ok c c.length (input.length * 10) (by omega) (by omega)
  refine ⟨h1, h2, ?_⟩
  cases hdc : decode input with
  | none => rw [h1 hdc]; exact fun h => DecompressOutcome.noConfusion h
  | some c => rw [h2 c hdc]; exact fun h => DecompressOutcome.noConfusion h

/-- A one-point zlib semantics used in the C5 witness: the single-byte
input `z` decodes to `xy`; everything else is invalid. -/
def decodeW : List Char → Option (List Char) :=
  fun l => if l = ['z'] then some "xy".data else none

/-- C5 witness: the totality theorem instantiated at the concrete
semantics `decodeW` and input `['z']`. -/
theorem decompress_total_witness :
    (∀ c, decodeW ['z'] = some c → (['z'] : List Char) ≠ []) ∧
    ((decodeW ['z'] = none → decompressData decodeW ['z'] = DecompressOutcome.corrupt)
      ∧ (∀ c, decodeW ['z'] = some c →
          decompressData decodeW ['z'] = DecompressOutcome.ok c)
      ∧ decompressData decodeW ['z'] ≠ DecompressOutcome.diverges) :=
  ⟨fun _ _ => by decide, decompress_total decodeW ['z'] (fun _ _ => by decide)⟩

/-! ## Commit parsing (C8) -/

/-- The lines produced by repeated `std::getline` over a string: split
at newlines, except that a trailing newline yields no final empty line
and an empty string yields no line at all. -/
def cppLines (s : List Char) : List (List Char) :=
  if s = [] then []
  else
    let segs := splitLines s
    if segs.getLast? = some [] then segs.dropLast else segs

/-- Parsed commit fields (struct `CommitInfo`, src/main.cpp:342-350);
all fields default-initialize to the empty string. -/
structure CommitInfo where
  treeSha : List Char := []
  parentSha : List Char := []
  author : List Char := []
  committer : List Char := []
  message : List Char := []
  timestamp : List Char := []
deriving DecidableEq

/-- Models `rfind(' ')` followed by `substr(timePos + 1)`
(src/main.cpp:389-393): the suffix after the last space, or `none` when
the string has no space (`npos`, leaving the field untouched). -/
def afterLastSpace (c : List Char) : Option (List Char) :=
  if ' ' ∈ c then some ((c.reverse.takeWhile (fun ch => ch != ' ')).reverse)
  else none

/-- One header line of `parseCommit`'s first loop (src/main.cpp:374-395):
prefix-dispatch on `tree `, `parent `, `author `, `committer `; on the
committer line the `timestamp` field is set to the suffix after the last
space of the committer value. -/
def applyHeaderLine (info : CommitInfo) (l : List Char) : CommitInfo :=
  if l.take 5 = "tree ".data then { info with treeSha := l.drop 5 }
  else if l.take 7 = "parent ".data then { info with parentSha := l.drop 7 }
  else if l.take 7 = "author ".data then { info with author := l.drop 7 }
  else if l.take 10 = "committer ".data then
    match afterLastSpace (l.drop 10) with
    | some ts => { info with committer := l.drop 10, timestamp := ts }
    | none => { info with committer := l.drop 10 }
  else info

/-- The message loop of `parseCommit` (src/main.cpp:398-400): every
remaining line is appended to the message followed by a newline. -/
def parseMessageLines : List (List Char) → CommitInfo → CommitInfo
  | [], info => info
  | l :: ls, info =>
    parseMessageLines ls { info with message := info.message ++ l ++ "\n".data }

/-- The header loop of `parseCommit` (src/main.cpp:369-395): header
lines are dispatched until the first blank line, after which the
remaining lines form the message. -/
def parseCommitLines : List (List Char) → CommitInfo → CommitInfo
  | [], info => info
  | l :: ls, info =>
    if l = [] then parseMessageLines ls info
    else parseCommitLines ls (applyHeaderLine info l)

/-- Translation of `parseCommit` on the payload after the header null. -/
def parseCommitContent (content : List Char) : CommitInfo :=
  parseCommitLines (cppLines content) {}

/-- Translation of `parseCommit` on the raw commit object data (src/main.cpp:353-404):
default info for empty data or data without a null byte, otherwise parse
the content after the first null byte. -/
def parseCommitData (commitData : List Char) : CommitInfo :=
  if commitData = [] then {}
  else
    match splitAtChar nul commitData with
    | none => {}
    | some (_, content) => parseCommitContent content

/-- The serialization of a concrete commit (tree `shaA`, no parent,
message `first`, time 1700000000); its committer line is
`committer User <user@example.com> 1700000000 +0000`. -/
def c8Data : List Char := mkCommitData (commitContent shaA [] "first".data 1700000000)

set_option maxRecDepth 4000 in
/-- C8.  Evaluating `parseCommit` at a well-formed commit whose
committer line ends with `... 1700000000 +0000` shows that the code
stores the time-zone offset `+0000` — the token after the *last* space
found by `rfind(' ')` — in the `timestamp` field, not the unix-seconds
token `1700000000` the claim (and the field's own name) call for. -/
theorem commit_timestamp_is_tz_offset :
    (parseCommitData c8Data).committer =
      "User <user@example.com> 1700000000 +0000".data ∧
    (parseCommitData c8Data).timestamp = "+0000".data ∧
    (parseCommitData c8Data).timestamp ≠ "1700000000".data := by
  refine ⟨?_, ?_, ?_⟩ <;> decide

/-! ## The index file and the repository state -/

/-- Test for `std::isspace` in the C locale, as used by `operator>>` on
`istringstream` (src/main.cpp:431). -/
def isCppSpace (c : Char) : Bool :=
  c == ' ' || c == '\t' || c == '\n' || c == '\x0b' || c == '\x0c' || c == '\r'

/-- Accumulator-based whitespace tokenizer: models repeated `>>`
extraction over one line. -/
def tokenizeAux : List Char → List Char → List (List Char)
  | cur, [] => if cur = [] then [] else [cur.reverse]
  | cur, c :: cs =>
    if isCppSpace c then
      if cur = [] then tokenizeAux [] cs
      else cur.reverse :: tokenizeAux [] cs
    else tokenizeAux (c :: cur) cs

/-- Whitespace-separated tokens of a line. -/
def tokenize (s : List Char) : List (List Char) := tokenizeAux [] s

/-- One line of the index file parsed by
`iss >> entry.mode >> entry.sha >> entry.path` (src/main.cpp:429-431):
the first three tokens in that order; a failed extraction leaves the
default-initialized empty string. -/
def parseIndexLine (l : List Char) : IndexEntry :=
  { path := (tokenize l).getD 2 [], sha := (tokenize l).getD 1 [],
    mode := (tokenize l).getD 0 [] }

/-- Translation of `readIndex` (src/main.cpp:417-435): empty list when the index file
is absent, otherwise one entry per `getline` line. -/
def readIndex : Option (List Char) → List IndexEntry
  | none => []
  | some s => (cppLines s).map parseIndexLine

/-- The repository state touched by `commit`: the HEAD file, the ref
files keyed by their path relative to the repository directory, the
index file (`none` when absent), the object database keyed by digest,
and the log file. -/
structure RepoState where
  headFile : Option (List Char)
  refs : List (List Char × List Char)
  indexFile : Option (List Char)
  objects : List (List Char × List Char)
  log : List Char
deriving DecidableEq

/-- Association-list lookup (a file-system read of a keyed file). -/
def lookupA : List (List Char × List Char) → List Char → Option (List Char)
  | [], _ => none
  | (k, v) :: t, key => if k = key then some v else lookupA t key

/-- Association-list overwrite (a file-system write of a keyed file). -/
def insertA : List (List Char × List Char) → List Char → List Char →
    List (List Char × List Char)
  | [], key, val => [(key, val)]
  | (k, v) :: t, key, val =>
    if k = key then (key, val) :: t else (k, v) :: insertA t key val

theorem lookupA_insertA_self (l : List (List Char × List Char)) (k v : List Char) :
    lookupA (insertA l k v) k = some v := by
  induction l with
  | nil => simp [insertA, lookupA]
  | cons p t ih =>
    obtain ⟨k2, v2⟩ := p
    by_cases h : k2 = k
    · simp [insertA, lookupA, h]
    · simp [insertA, lookupA, h, ih]

/-- Models `if (s.back() == '\n') s.pop_back()` (src/main.cpp:530-531,
535-536, 552-553).  (On the empty string the C++ call is undefined
behaviour; the model leaves it unchanged, and the theorems only reach it
with non-empty content.) -/
def chompNl (s : List Char) : List Char :=
  if s.getLast? = some '\n' then s.dropLast else s

/-- Side effects of `commit`, in the order they are performed. -/
inductive Event where
  | writeObject (sha : List Char)
  | writeRef (refPath : List Char)
  | appendLog
  | clearIndex
  | print (msg : List Char)
deriving DecidableEq

/-- Translation of `getHEAD` (src/main.cpp:520-541): follow the `ref: ` indirection of
the HEAD file and read the digest in the referenced file, stripping a
trailing newline; empty string when HEAD or the ref file is absent or
HEAD has no `ref: ` form. -/
def getHEADst (st : RepoState) : List Char :=
  match st.headFile with
  | none => []
  | some content =>
    if content.take 5 = "ref: ".data then
      match lookupA st.refs (chompNl (content.drop 5)) with
      | none => []
      | some sha => chompNl sha
    else []

/-- Translation of `updateHEAD` (src/main.cpp:544-556): when the HEAD file content
starts with `ref: `, write `<digest>\n` to the referenced ref file;
otherwise do nothing. -/
def updateHEADst (commitSha : List Char) (st : RepoState) : RepoState × List Event :=
  let content := st.headFile.getD []
  if content.take 5 = "ref: ".data then
    let refPath := chompNl (content.drop 5)
    ({ st with refs := insertA st.refs refPath (commitSha ++ "\n".data) },
      [Event.writeRef refPath])
  else (st, [])

/-- The record `updateLog` appends (src/main.cpp:559-572); the parent
line is present whenever the parent digest is non-empty (no all-zero
check here, unlike `createCommit`). -/
def logRecord (commitSha parentSha message : List Char) (now : Nat) : List Char :=
  "commit ".data ++ commitSha ++ "\n".data
  ++ (if parentSha ≠ [] then "parent ".data ++ parentSha ++ "\n".data else [])
  ++ "message ".data ++ message ++ "\n".data
  ++ "timestamp ".data ++ natDecimal now ++ "\n".data
  ++ "---\n".data

/-- Translation of `cmdCommit` (src/main.cpp:740-759), parameterised by the digest
function `hash` (SHA-1 is an external primitive) and the wall clock
`now`: build the tree from the index (writing the tree object), stop
with `Nothing to commit` on an empty index, read HEAD as parent, write
the commit object, update the ref through HEAD, append the log, clear
the index, print the digest.  The event list records the side effects in
program order. -/
def cmdCommitM (hash : List Char → List Char) (now : Nat) (message : List Char)
    (st : RepoState) : RepoState × List Event :=
  let idx := readIndex st.indexFile
  if idx = [] then (st, [Event.print "Nothing to commit".data])
  else
    let treeData := treeDataFromIndex idx
    let treeSha := hash treeData
    let st1 : RepoState := { st with objects := insertA st.objects treeSha treeData }
    let parentSha := getHEADst st1
    let commitData := mkCommitData (commitContent treeSha parentSha message now)
    let commitSha := hash commitData
    let st2 : RepoState := { st1 with objects := insertA st1.objects commitSha commitData }
    let stev := updateHEADst commitSha st2
    let st4 : RepoState := { stev.1 with
      log := stev.1.log ++ logRecord commitSha parentSha message now }
    let st5 : RepoState := { st4 with indexFile := some [] }
    (st5, Event.writeObject treeSha :: Event.writeObject commitSha ::
      (stev.2 ++ [Event.appendLog, Event.clearIndex, Event.print commitSha]))

/-- The repository state after `createTreeFromIndex` has written the
tree object inside `cmdCommit` (src/main.cpp:742). -/
def commitStateAfterTree (hash : List Char → List Char) (st : RepoState) : RepoState :=
  let tD := treeDataFromIndex (readIndex st.indexFile)
  { st with objects := insertA st.objects (hash tD) tD }

/-- C3.  For every commit from a non-empty index under a HEAD of the
`ref: <path>` form, afterwards the index file is empty and the ref file
HEAD points to contains exactly the new commit digest followed by a
newline; the event trace shows the tree object written first, then the
commit object, then the ref moved, then the log appended and the index
cleared. -/
theorem commit_postconditions (hash : List Char → List Char) (now : Nat)
    (msg : List Char) (st : RepoState) (p : List Char)
    (hidx : ¬ readIndex st.indexFile = [])
    (hhead : st.headFile = some ("ref: ".data ++ p ++ "\n".data)) :
    ∃ treeSha commitSha,
      (cmdCommitM hash now msg st).2 =
        [Event.writeObject treeSha, Event.writeObject commitSha,
         Event.writeRef p, Event.appendLog, Event.clearIndex, Event.print commitSha]
      ∧ (cmdCommitM hash now msg st).1.indexFile = some []
      ∧ lookupA (cmdCommitM hash now msg st).1.refs p =
          some (commitSha ++ "\n".data) := by
  have htake : (("ref: ".data ++ p ++ "\n".data) : List Char).take 5 = "ref: ".data := by
    rw [List.append_assoc, List.take_append_of_le_length (by decide)]
    decide
  have hdrop : (("ref: ".data ++ p ++ "\n".data) : List Char).drop 5 = p ++ "\n".data := by
    rw [List.append_assoc, List.drop_left' (by decide)]
  have hch : chompNl (p ++ "\n".data) = p := by
    unfold chompNl
    have h1 : p ++ "\n".data = p ++ ['\n'] := rfl
    rw [h1, List.getLast?_concat, if_pos rfl, List.dropLast_concat]
  refine ⟨hash (treeDataFromIndex (readIndex st.indexFile)),
    hash (mkCommitData (commitContent
      (hash (treeDataFromIndex (readIndex st.indexFile)))
      (getHEADst (commitStateAfterTree hash st))
      msg now)), ?_, ?_, ?_⟩ <;>
    simp [cmdCommitM, commitStateAfterTree, updateHEADst, hidx, hhead, htake, hdrop,
      hch, lookupA_insertA_self]

/-- A concrete repository state: HEAD pointing at ref `r`, one staged
file `a`. -/
def witC3State : RepoState :=
  { headFile := some ("ref: ".data ++ "r".data ++ "\n".data),
    refs := [], indexFile := some "100644 s a\n".data, objects := [], log := [] }

/-- C3 witness: the commit postconditions at the concrete state
`witC3State` with the identity digest function. -/
theorem commit_postconditions_witness :
    (¬ readIndex witC3State.indexFile = []) ∧
    witC3State.headFile = some ("ref: ".data ++ "r".data ++ "\n".data) ∧
    (∃ treeSha commitSha,
      (cmdCommitM (fun s => s) 7 "m".data witC3State).2 =
        [Event.writeObject treeSha, Event.writeObject commitSha,
         Event.writeRef "r".data, Event.appendLog, Event.clearIndex,
         Event.print commitSha]
      ∧ (cmdCommitM (fun s => s) 7 "m".data witC3State).1.indexFile = some []
      ∧ lookupA (cmdCommitM (fun s => s) 7 "m".data witC3State).1.refs "r".data =
          some (commitSha ++ "\n".data)) :=
  ⟨by decide, rfl,
    commit_postconditions (fun s => s) 7 "m".data witC3State "r".data (by decide) rfl⟩

/-- C9.  When the index is empty or the index file is absent, `commit`
changes nothing — no object written, HEAD, refs, log and index file all
untouched — and only reports `Nothing to commit`. -/
theorem commit_nothing_to_commit (hash : List Char → List Char) (now : Nat)
    (msg : List Char) (st : RepoState)
    (hidx : readIndex st.indexFile = []) :
    cmdCommitM hash now msg st = (st, [Event.print "Nothing to commit".data]) := by
  simp [cmdCommitM, hidx]

/-- A concrete repository state whose index file is absent. -/
def witC9State : RepoState :=
  { headFile := some "ref: refs\\heads\\master\n".data,
    refs := [], indexFile := none, objects := [], log := [] }

/-- C9 witness: the no-op commit at the concrete state with an absent
index file. -/
theorem commit_nothing_to_commit_witness :
    readIndex witC9State.indexFile = [] ∧
    cmdCommitM (fun s => s) 7 "m".data witC9State =
      (witC9State, [Event.print "Nothing to commit".data]) :=
  ⟨rfl, commit_nothing_to_commit (fun s => s) 7 "m".data witC9State rfl⟩

/-! ## Checkout clear phase (C10) -/

/-- The skip condition of the cleanup loop of `cmdCheckout`
(src/main.cpp:796-797). -/
def checkoutSkip (name : List Char) : Bool :=
  name == ".".data || name == "..".data || name == ".mygit".data ||
  name == "mygit.exe".data || name == "main.cpp".data || name == "makefile".data

/-- The cleanup loop of `cmdCheckout` (src/main.cpp:791-809),
parameterised by which removals fail (`remove_all` throwing): returns
the children removed and the children for which only a warning was
printed; skipped children are touched by neither list. -/
def checkoutClear (removeFails : List Char → Bool) :
    List (List Char) → List (List Char) × List (List Char)
  | [] => ([], [])
  | n :: ns =>
    let rest := checkoutClear removeFails ns
    if checkoutSkip n then rest
    else if removeFails n then (rest.1, n :: rest.2)
    else (n :: rest.1, rest.2)

/-- The protected set named by C10. -/
def protectedNames : List (List Char) :=
  [".".data, "..".data, ".mygit".data, "mygit.exe".data,
   "main.cpp".data, "makefile".data]

theorem checkoutClear_eq_filter (removeFails : List Char → Bool)
    (children : List (List Char)) :
    checkoutClear removeFails children =
      (children.filter (fun n => !checkoutSkip n && !removeFails n),
       children.filter (fun n => !checkoutSkip n && removeFails n)) := by
  induction children with
  | nil => simp [checkoutClear]
  | cons m ms ih =>
    by_cases hm : checkoutSkip m = true
    · simp [checkoutClear, hm, ih, List.filter_cons]
    · by_cases hf : removeFails m = true
      · simp [checkoutClear, hm, hf, ih, List.filter_cons]
      · simp [checkoutClear, hm, hf, ih, List.filter_cons]

/-- C10.  During the clear phase of checkout, exactly the immediate
children named `.`, `..`, `.mygit`, `mygit.exe`, `main.cpp` or
`makefile` are left untouched; every other child is deleted, except that
a child whose removal fails is only warned about. -/
theorem checkout_protected_set (removeFails : List Char → Bool)
    (children : List (List Char)) (n : List Char) :
    (n ∈ protectedNames →
      n ∉ (checkoutClear removeFails children).1 ∧
      n ∉ (checkoutClear removeFails children).2)
    ∧ (n ∈ (checkoutClear removeFails children).1 ↔
        n ∈ children ∧ n ∉ protectedNames ∧ removeFails n = false)
    ∧ (n ∈ (checkoutClear removeFails children).2 ↔
        n ∈ children ∧ n ∉ protectedNames ∧ removeFails n = true) := by
  have hskipT : ∀ m, checkoutSkip m = true ↔ m ∈ protectedNames := by
    intro m
    simp [checkoutSkip, protectedNames, or_assoc]
  have hskipF : ∀ m, checkoutSkip m = false ↔ m ∉ protectedNames := by
    intro m
    rw [← hskipT]
    cases checkoutSkip m <;> simp
  rw [checkoutClear_eq_filter]
  simp only [List.mem_filter, Bool.and_eq_true, Bool.not_eq_true', hskipF]
  tauto

/-- A concrete removal-failure model: removing `locked` fails. -/
def witC10Fails : List Char → Bool := fun l => l == "locked".data

/-- A concrete working-directory listing. -/
def witC10Children : List (List Char) :=
  [".".data, ".mygit".data, "a.txt".data, "locked".data, "main.cpp".data]

/-- C10 witness: the clear-phase characterization at a concrete
directory listing and child name. -/
theorem checkout_protected_set_witness :
    (("a.txt".data : List Char) ∈ protectedNames →
      "a.txt".data ∉ (checkoutClear witC10Fails witC10Children).1 ∧
      "a.txt".data ∉ (checkoutClear witC10Fails witC10Children).2)
    ∧ ("a.txt".data ∈ (checkoutClear witC10Fails witC10Children).1 ↔
        "a.txt".data ∈ witC10Children ∧ "a.txt".data ∉ protectedNames ∧
          witC10Fails "a.txt".data = false)
    ∧ ("a.txt".data ∈ (checkoutClear witC10Fails witC10Children).2 ↔
        "a.txt".data ∈ witC10Children ∧ "a.txt".data ∉ protectedNames ∧
          witC10Fails "a.txt".data = true) :=
  checkout_protected_set witC10Fails witC10Children "a.txt".data

end MyGit
